/-
Verification of the QuantumMechanics NEGF repository (block-tridiagonal Greens
solver, semi-infinite chain decimation solver, two-lead Landauer transport
solver, Hermitian eigensolver driver and block-matrix bookkeeping).

The definitions below are shallow embeddings of the C++ sources.  Scalars are
taken in an abstract field K (the sources instantiate at complex<double>);
Eigen dense inverses are modelled by the exact adjugate formula (minv), which
sends a singular matrix to the zero matrix where Eigen would produce a
NaN/Inf-filled result; both semantics agree on every invertible input.
-/
import Mathlib

set_option linter.unusedSectionVars false

namespace QuantumMechanics

open scoped Matrix

/-! ## Scalar and dense-matrix helpers -/

variable {K : Type} [Field K] [DecidableEq K]

/-- Model of the Eigen dense `.inverse()` call: the exact inverse computed by
the adjugate formula.  For an invertible matrix this is the true inverse; for a
singular one it degenerates to the zero matrix (Eigen would produce a
meaningless NaN/Inf fill there; no claim below depends on which junk value a
singular inversion produces, and counterexamples are arranged to be robust to
either choice). -/
def minv {n : Type} [Fintype n] [DecidableEq n] (A : Matrix n n K) : Matrix n n K :=
  A.det⁻¹ • A.adjugate

/-- Model of the `.real()` call on a complex scalar: the real part, expressed
inside the scalar field as (z + conj z) / 2 so that the definition stays
meaningful over an abstract star-field. -/
def creal [StarRing K] (z : K) : K := (z + star z) / 2

/-! ## Block-partitioned index types and block-tridiagonal matrices

A partition of a dimension into consecutive blocks of sizes k₀, k₁, ... is
modelled by the index type Fin k₀ ⊕ (Fin k₁ ⊕ (...)), mirroring the
ArrayXi-of-sizes plus prefix-offset bookkeeping of the sources. -/

/-- Index type of a block-partitioned dimension with the given block sizes
(reducible, so that the standard Fintype and decidability instances of sums
apply). -/
abbrev BlockIdx : List ℕ → Type
  | [] => Empty
  | k :: ks => Fin k ⊕ BlockIdx ks

instance instBlockIdxFintype : (ks : List ℕ) → Fintype (BlockIdx ks)
  | [] => inferInstanceAs (Fintype Empty)
  | k :: ks =>
    letI := instBlockIdxFintype ks
    inferInstanceAs (Fintype (Fin k ⊕ BlockIdx ks))

instance instBlockIdxDecEq : (ks : List ℕ) → DecidableEq (BlockIdx ks)
  | [] => inferInstanceAs (DecidableEq Empty)
  | k :: ks =>
    letI := instBlockIdxDecEq ks
    inferInstanceAs (DecidableEq (Fin k ⊕ BlockIdx ks))

/-- Block-tridiagonal data, exactly the blocks the recursive sweeps of
GreensSolver read (src/GreensFormalism/greenssolver.hpp): the diagonal blocks
d = block(b,b), the superdiagonal blocks u = block(b,b+1) and the subdiagonal
blocks l = block(b+1,b).  TriDiag K k ks has head block size k and remaining
block sizes ks, so the block count is ks.length + 1. -/
inductive TriDiag (K : Type) : ℕ → List ℕ → Type where
  | single : {k : ℕ} → (d : Matrix (Fin k) (Fin k) K) → TriDiag K k []
  | cons : {k a : ℕ} → {ks : List ℕ} → (d : Matrix (Fin k) (Fin k) K) →
      (u : Matrix (Fin k) (Fin a) K) → (l : Matrix (Fin a) (Fin k) K) →
      TriDiag K a ks → TriDiag K k (a :: ks)

/-- Size of the last block of a partition with head size k and tail sizes ks. -/
def lastSize (k : ℕ) : List ℕ → ℕ
  | [] => k
  | a :: ks => lastSize a ks

/-- Embedding of the indices of the last block into the full partitioned index
type (the rows/columns addressed by block(-1,-1) in the sources). -/
def lastEmbed {k : ℕ} : (ks : List ℕ) → Fin (lastSize k ks) → Fin k ⊕ BlockIdx ks
  | [], i => Sum.inl i
  | _ :: ks, i => Sum.inr (lastEmbed ks i)

/-- Bottom-right diagonal block of a fully partitioned square matrix. -/
def cornerBlock {k : ℕ} {ks : List ℕ}
    (M : Matrix (Fin k ⊕ BlockIdx ks) (Fin k ⊕ BlockIdx ks) K) :
    Matrix (Fin (lastSize k ks)) (Fin (lastSize k ks)) K :=
  M.submatrix (lastEmbed ks) (lastEmbed ks)

/-- Full matrix described by block-tridiagonal data: the diagonal, first super-
and first subdiagonal blocks are as given and every other block is zero (the
corner-extraction modes of the sources assume, without checking, that the
off-tridiagonal blocks are absent). -/
def TriDiag.toMatrix : {k : ℕ} → {ks : List ℕ} → TriDiag K k ks →
    Matrix (Fin k ⊕ BlockIdx ks) (Fin k ⊕ BlockIdx ks) K
  | _, _, .single d => Matrix.fromBlocks d 0 0 0
  | _, _, .cons d u l rest =>
      Matrix.fromBlocks d (Matrix.fromColumns u 0) (Matrix.fromRows l 0) rest.toMatrix

/-- Forward sweep of GreensSolver::compute_last_block
(src/GreensFormalism/greenssolver.hpp lines 70-80), generalized over the
incoming accumulated self-energy: starting from sigma, each step performs
sigma := block(b+1,b) * inverse(block(b,b) - sigma) * block(b,b+1), and on the
last block the result inverse(block(last,last) - sigma) is returned. -/
def TriDiag.sweep : {k : ℕ} → {ks : List ℕ} → TriDiag K k ks →
    Matrix (Fin k) (Fin k) K → Matrix (Fin (lastSize k ks)) (Fin (lastSize k ks)) K
  | _, _, .single d, σ => minv (d - σ)
  | _, _, .cons d u l rest, σ => rest.sweep (l * minv (d - σ) * u)

/-- Embedding of GreensSolver::compute_last_block
(src/GreensFormalism/greenssolver.hpp lines 64-85).  For block_count = 1 the
loop body never runs, sigma stays the zero block, and the source takes the
branch G = sigma.inverse(), i.e. it inverts the zero block; for
block_count >= 2 it performs the forward sweep from sigma = 0 and returns
inverse(block(-1,-1) - sigma). -/
def compute_last_block : {k : ℕ} → {ks : List ℕ} → TriDiag K k ks →
    Matrix (Fin (lastSize k ks)) (Fin (lastSize k ks)) K
  | _, _, .single _ => minv 0
  | _, _, .cons d u l rest => TriDiag.sweep (.cons d u l rest) 0

/-- Subtract a matrix from the head diagonal block of block-tridiagonal data
(used to express one elimination step as a smaller instance of the same
problem). -/
def TriDiag.subHead : {k : ℕ} → {ks : List ℕ} → Matrix (Fin k) (Fin k) K →
    TriDiag K k ks → TriDiag K k ks
  | _, _, σ, .single d => .single (d - σ)
  | _, _, σ, .cons d u l rest => .cons (d - σ) u l rest

/-- Invertibility of every matrix the sweep inverts: block(b,b) - sigma_b for
each block b, where sigma is accumulated from the given starting value. -/
def TriDiag.sweepOk : {k : ℕ} → {ks : List ℕ} → Matrix (Fin k) (Fin k) K →
    TriDiag K k ks → Prop
  | _, _, σ, .single d => IsUnit (d - σ)
  | _, _, σ, .cons d u l rest => IsUnit (d - σ) ∧ rest.sweepOk (l * minv (d - σ) * u)

/-- Invertibility of every diagonal block alone (the hypothesis of claim C1 as
frozen). -/
def TriDiag.diagUnit : {k : ℕ} → {ks : List ℕ} → TriDiag K k ks → Prop
  | _, _, .single d => IsUnit d
  | _, _, .cons d _ _ rest => IsUnit d ∧ rest.diagUnit

/-- Embedding of GreensSolver::compute_first_block
(src/GreensFormalism/greenssolver.hpp lines 87-108) for a matrix partitioned
into exactly two blocks, as a pair (greens matrix, reduced sigma): the one loop
iteration (b = -1) computes sigma = block(-2,-1) * inverse(block(-1,-1) -
sigma0) * block(-1,-2) with sigma0 the zero block, and the result is
G = inverse(block(0,0) - sigma).  The source handles an arbitrary partition by
iterating the same step; the two-lead transport claims only need the two-block
instance, which is embedded here without further specialization of the
formulas. -/
def compute_first_block₂ {α β : Type} [Fintype α] [DecidableEq α] [Fintype β] [DecidableEq β]
    (M : Matrix (α ⊕ β) (α ⊕ β) K) : Matrix α α K × Matrix α α K :=
  let σ0 : Matrix β β K := 0
  let σ : Matrix α α K := M.toBlocks₁₂ * minv (M.toBlocks₂₂ - σ0) * M.toBlocks₂₁
  (minv (M.toBlocks₁₁ - σ), σ)

/-! ## Gaussian rationals

A computable star-field with a genuine imaginary unit, used to instantiate the
abstract scalar field of the embeddings on concrete inputs (the sources use
complex<double>). -/

/-- Gaussian rational numbers a + b i. -/
@[ext] structure Qi where
  re : ℚ
  im : ℚ
deriving DecidableEq

instance : Zero Qi := ⟨⟨0, 0⟩⟩

instance : One Qi := ⟨⟨1, 0⟩⟩

instance : Add Qi := ⟨fun x y => ⟨x.re + y.re, x.im + y.im⟩⟩

instance : Neg Qi := ⟨fun x => ⟨-x.re, -x.im⟩⟩

instance : Mul Qi := ⟨fun x y => ⟨x.re * y.re - x.im * y.im, x.re * y.im + x.im * y.re⟩⟩

instance : Inv Qi :=
  ⟨fun x => ⟨x.re / (x.re ^ 2 + x.im ^ 2), -x.im / (x.re ^ 2 + x.im ^ 2)⟩⟩

/-- The imaginary unit of the Gaussian rationals (the model of the literal
std::complex<double>(0, 1) of the sources). -/
def Qi.I : Qi := ⟨0, 1⟩

instance : CommRing Qi where
  add_assoc a b c := by
    ext
    · exact add_assoc a.re b.re c.re
    · exact add_assoc a.im b.im c.im
  zero_add a := by
    ext
    · exact zero_add a.re
    · exact zero_add a.im
  add_zero a := by
    ext
    · exact add_zero a.re
    · exact add_zero a.im
  add_comm a b := by
    ext
    · exact add_comm a.re b.re
    · exact add_comm a.im b.im
  neg_add_cancel a := by
    ext
    · exact neg_add_cancel a.re
    · exact neg_add_cancel a.im
  mul_assoc a b c := by
    ext
    · show (a.re * b.re - a.im * b.im) * c.re - (a.re * b.im + a.im * b.re) * c.im =
        a.re * (b.re * c.re - b.im * c.im) - a.im * (b.re * c.im + b.im * c.re)
      ring
    · show (a.re * b.re - a.im * b.im) * c.im + (a.re * b.im + a.im * b.re) * c.re =
        a.re * (b.re * c.im + b.im * c.re) + a.im * (b.re * c.re - b.im * c.im)
      ring
  one_mul a := by
    ext
    · show 1 * a.re - 0 * a.im = a.re
      ring
    · show 1 * a.im + 0 * a.re = a.im
      ring
  mul_one a := by
    ext
    · show a.re * 1 - a.im * 0 = a.re
      ring
    · show a.re * 0 + a.im * 1 = a.im
      ring
  left_distrib a b c := by
    ext
    · show a.re * (b.re + c.re) - a.im * (b.im + c.im) =
        (a.re * b.re - a.im * b.im) + (a.re * c.re - a.im * c.im)
      ring
    · show a.re * (b.im + c.im) + a.im * (b.re + c.re) =
        (a.re * b.im + a.im * b.re) + (a.re * c.im + a.im * c.re)
      ring
  right_distrib a b c := by
    ext
    · show (a.re + b.re) * c.re - (a.im + b.im) * c.im =
        (a.re * c.re - a.im * c.im) + (b.re * c.re - b.im * c.im)
      ring
    · show (a.re + b.re) * c.im + (a.im + b.im) * c.re =
        (a.re * c.im + a.im * c.re) + (b.re * c.im + b.im * c.re)
      ring
  mul_comm a b := by
    ext
    · show a.re * b.re - a.im * b.im = b.re * a.re - b.im * a.im
      ring
    · show a.re * b.im + a.im * b.re = b.re * a.im + b.im * a.re
      ring
  zero_mul a := by
    ext
    · show 0 * a.re - 0 * a.im = 0
      ring
    · show 0 * a.im + 0 * a.re = 0
      ring
  mul_zero a := by
    ext
    · show a.re * 0 - a.im * 0 = 0
      ring
    · show a.re * 0 + a.im * 0 = 0
      ring
  nsmul := nsmulRec
  zsmul := zsmulRec

instance : Field Qi where
  exists_pair_ne := ⟨0, 1, by
    intro h
    have h2 : (0 : ℚ) = 1 := congrArg Qi.re h
    exact absurd h2 (by norm_num)⟩
  mul_inv_cancel a ha := by
    have hn : a.re ^ 2 + a.im ^ 2 ≠ 0 := by
      intro h0
      apply ha
      have hre : a.re = 0 := by nlinarith [sq_nonneg a.re, sq_nonneg a.im]
      have him : a.im = 0 := by nlinarith [sq_nonneg a.re, sq_nonneg a.im]
      ext
      · exact hre
      · exact him
    ext
    · show a.re * (a.re / (a.re ^ 2 + a.im ^ 2)) - a.im * (-a.im / (a.re ^ 2 + a.im ^ 2)) = 1
      field_simp
      ring
    · show a.re * (-a.im / (a.re ^ 2 + a.im ^ 2)) + a.im * (a.re / (a.re ^ 2 + a.im ^ 2)) = 0
      field_simp
      ring
  inv_zero := by
    ext
    · show (0 : ℚ) / ((0 : ℚ) ^ 2 + (0 : ℚ) ^ 2) = 0
      simp
    · show -(0 : ℚ) / ((0 : ℚ) ^ 2 + (0 : ℚ) ^ 2) = 0
      simp
  nnqsmul := _
  qsmul := _

instance : StarRing Qi where
  star x := ⟨x.re, -x.im⟩
  star_involutive a := by
    ext
    · show a.re = a.re
      rfl
    · show - -a.im = a.im
      ring
  star_mul a b := by
    ext
    · show a.re * b.re - a.im * b.im = b.re * a.re - -b.im * -a.im
      ring
    · show -(a.re * b.im + a.im * b.re) = b.re * -a.im + -b.im * a.re
      ring
  star_add a b := by
    ext
    · show a.re + b.re = a.re + b.re
      rfl
    · show -(a.im + b.im) = -a.im + -b.im
      ring

/-! ## SemiInfiniteChainEngine (ChainSolver)

Embedding of GreensFormalism::ChainSolver::compute_matrix
(src/GreensFormalism/greenssolver.hpp lines 635-670, the variant the two-lead
transport solver instantiates through its two-matrix constructor). -/

/-- Loop state of ChainSolver::compute_matrix: the bulk effective energy
epsilon, the surface effective energy epsilonsurf, the renormalized couplings
alpha and beta, the running inverse G and the loop counter iter. -/
structure ChainState (n : Type) (K : Type) where
  epsilon : Matrix n n K
  epsilonsurf : Matrix n n K
  alpha : Matrix n n K
  beta : Matrix n n K
  g : Matrix n n K
  iter : ℕ

variable {n : Type} [Fintype n] [DecidableEq n]

/-- Initial state of ChainSolver::compute_matrix (lines 641-646): epsilon =
epsilonsurf = H, G = inverse(epsilon), alpha = V, beta = adjoint(V). -/
def chainInit [StarRing K] (H V : Matrix n n K) : ChainState n K :=
  { epsilon := H, epsilonsurf := H, alpha := V, beta := Vᴴ, g := minv H, iter := 0 }

/-- One iteration of the decimation loop (lines 656-665). -/
def chainStep (s : ChainState n K) : ChainState n K :=
  let ε := s.epsilon + (s.beta * s.g * s.alpha + s.alpha * s.g * s.beta)
  { epsilon := ε
    epsilonsurf := s.epsilonsurf + s.alpha * s.g * s.beta
    alpha := s.alpha * s.g * s.alpha
    beta := s.beta * s.g * s.beta
    g := minv ε
    iter := s.iter + 1 }

/-- Loop guard valid() of lines 648-654, verbatim from the source: it returns
TRUE exactly when alpha and beta are both negligible (alpha.isZero(1.0e-12) &&
beta.isZero(1.0e-12)), and the for loop runs WHILE valid() holds.  The
magnitude test isZero is abstracted as the Boolean parameter negligible. -/
def chainValid (negligible : Matrix n n K → Bool) (s : ChainState n K) : Bool :=
  negligible s.alpha && negligible s.beta

/-- The for loop of lines 656-665: for (iter = 0; iter < max_iterations &&
valid(); iter++), with the remaining iteration budget as fuel. -/
def chainLoop (negligible : Matrix n n K → Bool) : ℕ → ChainState n K → ChainState n K
  | 0, s => s
  | fuel + 1, s => if chainValid negligible s then chainLoop negligible fuel (chainStep s) else s

/-- Embedding of ChainSolver::compute_matrix: run the loop from the initial
state, apply the final correction epsilonsurf += alpha * G * beta, and return
inverse(epsilonsurf) together with the number of loop iterations executed. -/
def chainCompute [StarRing K] (negligible : Matrix n n K → Bool) (max_iterations : ℕ)
    (H V : Matrix n n K) : Matrix n n K × ℕ :=
  let s := chainLoop negligible max_iterations (chainInit H V)
  (minv (s.epsilonsurf + s.alpha * s.g * s.beta), s.iter)

/-- Magnitude test with tolerance zero: a matrix is negligible exactly when it
is the zero matrix.  This is the tolerance-zero instance of the Eigen
isZero(precision) test used by the loop guard; the concrete claims below only
evaluate it on exactly-zero and on clearly-non-negligible matrices, where every
sane tolerance semantics agrees with it. -/
def negligible_exact {n : Type} [Fintype n] [DecidableEq n]
    (A : Matrix n n K) : Bool := decide (A = 0)

/-! ## TwoLeadTransportSolver

Embedding of LanduarFormalism::TwoLeadTransportSolver::compute_left_to_right
(src/LanduarFormalism/twoleadtransportsolver.hpp lines 116-143) for a device
partitioned into two blocks (index type α ⊕ β); the source handles an arbitrary
device partition through the same statements.  All seven input matrices are
device-sized, matching the dimension constraints the source assignments
impose. -/

variable {α β : Type} [Fintype α] [DecidableEq α] [Fintype β] [DecidableEq β]

/-- Broadening matrix built from a self-energy as in lines 139-140:
(sigma.adjoint() - sigma) multiplied by the imaginary unit (the source
multiplies the scalar on the right; scalar multiplication is written as smul
here). -/
def gammaOf [StarRing K] (im : K) {m : Type} (σ : Matrix m m K) : Matrix m m K :=
  im • (σᴴ - σ)

/-- Embedding of compute_left_to_right, returning the transport coefficient.
Line by line: run the two chain solvers on (h_ll, v_ll) and (h_rl, v_rl);
sigma_left = v_l * g_left * adjoint(v_l); sigma_right = adjoint(v_r) * g_right
* v_r; run the Greens solver in FirstBlock mode on h_d - sigma_left -
sigma_right (with the block partition of h_d); gamma_left is built from
block(0,0) of sigma_left, gamma_right from the reduced self-energy of the
FirstBlock sweep; transport = Re Tr(gamma_right * G * gamma_left *
adjoint(G)). -/
def compute_left_to_right [StarRing K] (negligible : Matrix (α ⊕ β) (α ⊕ β) K → Bool)
    (max_iterations : ℕ) (im : K)
    (h_ll v_ll h_rl v_rl v_l v_r h_d : Matrix (α ⊕ β) (α ⊕ β) K) : K :=
  let g_left := (chainCompute negligible max_iterations h_ll v_ll).1
  let g_right := (chainCompute negligible max_iterations h_rl v_rl).1
  let sigma_left := v_l * g_left * v_lᴴ
  let sigma_right := v_rᴴ * g_right * v_r
  let fb := compute_first_block₂ (h_d - sigma_left - sigma_right)
  let gamma_left := gammaOf im sigma_left.toBlocks₁₁
  let gamma_right := gammaOf im fb.2
  creal (gamma_right * fb.1 * gamma_left * fb.1ᴴ).trace

/-- The transmission formula as claim C2 states it literally: each broadening
matrix is built from the embedding self-energies of step one, so gamma_right
uses (the first device block of) sigma_right = adjoint(v_r) * g_right * v_r
instead of the reduced self-energy of the FirstBlock sweep.  This definition
follows the claim wording and exists to be compared against the embedding of
the source. -/
def compute_left_to_right_per_claim [StarRing K] (negligible : Matrix (α ⊕ β) (α ⊕ β) K → Bool)
    (max_iterations : ℕ) (im : K)
    (h_ll v_ll h_rl v_rl v_l v_r h_d : Matrix (α ⊕ β) (α ⊕ β) K) : K :=
  let g_left := (chainCompute negligible max_iterations h_ll v_ll).1
  let g_right := (chainCompute negligible max_iterations h_rl v_rl).1
  let sigma_left := v_l * g_left * v_lᴴ
  let sigma_right := v_rᴴ * g_right * v_r
  let fb := compute_first_block₂ (h_d - sigma_left - sigma_right)
  let gamma_left := gammaOf im sigma_left.toBlocks₁₁
  let gamma_right := gammaOf im sigma_right.toBlocks₁₁
  creal (gamma_right * fb.1 * gamma_left * fb.1ᴴ).trace

/-! ## Eigensystem range and HermitianSolver

Embeddings of the range struct (src/unnamed/part_000) and of
HermitianSolver::compute and compute_eigenvalues
(src/Eigensystem/hermitiansolver.hpp). -/

/-- The range_type enumeration of the range struct (part_000 lines 15-17). -/
inductive RangeType where
  | full_range
  | index_range
  | mid_index_range
  | value_range
deriving DecidableEq

/-- The Eigensystem::range struct (part_000 lines 14-20); the double-valued
bounds are modelled as exact rationals. -/
structure Rng where
  type_value : RangeType
  begin_index : ℤ
  end_index : ℤ
  lowest_value : ℚ
  highest_value : ℚ
deriving DecidableEq

/-- The full() range (part_000 lines 22-25 and 55-57). -/
def Rng.full : Rng :=
  { type_value := .full_range, begin_index := 0, end_index := 0,
    lowest_value := 0, highest_value := 0 }

/-- The custom equality operator of the range struct (part_000 lines 100-122):
two ranges compare equal when their types agree and the fields relevant for
that type agree (a full range compares equal to any full range). -/
def rangeEq (r s : Rng) : Bool :=
  if r.type_value ≠ s.type_value then false
  else if r.type_value = .full_range then true
  else if r.type_value = .index_range ∨ r.type_value = .mid_index_range then
    decide (r.begin_index = s.begin_index ∧ r.end_index = s.end_index)
  else if r.type_value = .value_range then
    decide (r.lowest_value = s.lowest_value ∧ r.highest_value = s.highest_value)
  else false

/-- Resolution of a negative index against the matrix size, the meaning of the
while loops of fit_indices_to_size (part_000 lines 93-97): size is added until
the index is nonnegative, which for positive size is the euclidean remainder
when the index is negative and the identity otherwise. -/
def wrap_negative (size : ℤ) (b : ℤ) : ℤ := if b < 0 then b % size else b

/-- Embedding of range::fit_indices_to_size (part_000 lines 83-98): full and
value ranges are untouched; a middle-index range is shifted by size / 2 and
becomes an index range; negative indices are wrapped. -/
def fit_indices_to_size (size : ℤ) (r : Rng) : Rng :=
  if r.type_value = .full_range ∨ r.type_value = .value_range then r
  else
    let r1 := if r.type_value = .mid_index_range then
      { r with type_value := .index_range,
               begin_index := r.begin_index + size / 2,
               end_index := r.end_index + size / 2 }
      else r
    { r1 with begin_index := wrap_negative size r1.begin_index,
              end_index := wrap_negative size r1.end_index }

/-- The compute_action enumeration of HermitianSolver (hermitiansolver.hpp
lines 98-101). -/
inductive HAction where
  | eigenvaluesOnly
  | eigenvaluesAndVectors
deriving DecidableEq

/-- Cached state of a HermitianSolver: the stored range and the optional cached
eigenvalue and eigenvector payloads (size() == 0 is modelled as none).  The
payload types are abstract: the eigensolver itself is an external
collaborator. -/
structure HState (V W : Type) where
  computed_range : Rng
  computed_eigenvalues : Option V
  computed_eigenvectors : Option W
deriving DecidableEq

/-- Fresh solver state (hermitiansolver.hpp constructors: computed_range =
range::full(), nothing computed). -/
def HState.fresh (V W : Type) : HState V W :=
  { computed_range := Rng.full, computed_eigenvalues := none, computed_eigenvectors := none }

/-- Embedding of HermitianSolver::compute (hermitiansolver.hpp lines 103-115).
The guard recomputes exactly when nothing is cached or the stored range differs
from the requested one under the custom range equality; the requested mode is
NOT part of the cache key.  The work of compute_eigenvalues /
compute_eigenvectors (an external LAPACK call) is abstracted into the two
oracle functions, applied to the fitted range as the source does through
fit_indices_to_size; the embedding assumes a nonempty matrix list of positive
size, so that the compute calls fill the cache. -/
def hcompute {V W : Type} (size : ℤ) (ev : Rng → V) (evec : Rng → V × W)
    (action : HAction) (compute_range : Rng) (s : HState V W) : HState V W :=
  if action = HAction.eigenvaluesOnly ∧
      (s.computed_eigenvalues.isNone ∨ rangeEq s.computed_range compute_range = false) then
    let r := fit_indices_to_size size compute_range
    { computed_range := r, computed_eigenvalues := some (ev r),
      computed_eigenvectors := s.computed_eigenvectors }
  else if action = HAction.eigenvaluesAndVectors ∧
      (s.computed_eigenvalues.isNone ∨ rangeEq s.computed_range compute_range = false) then
    let r := fit_indices_to_size size compute_range
    let p := evec r
    { computed_range := r, computed_eigenvalues := some p.1,
      computed_eigenvectors := some p.2 }
  else s

/-- Model of a double as either an exact value or the not-a-number sentinel
produced by nan(0). -/
inductive FpVal where
  | nan : FpVal
  | val : ℚ → FpVal
deriving DecidableEq

/-- Per-instance body of HermitianSolver::compute_eigenvalues
(hermitiansolver.hpp lines 140-188) for instance matrices abstracted by their
dimensions and by the outcome (info, values) of the external LAPACKE_zheevr
call: an undersized matrix gets its output column filled with NaN (lines
147-151), a nonzero info gets its output column filled with NaN (lines
185-187), and otherwise the column holds the values the solver returned.  The
function returns only the value column: no error indication leaves this code
path. -/
def compute_eigenvalues_column (size : ℕ) (rows cols : ℕ) (info : ℤ)
    (vals : List FpVal) : List FpVal :=
  if rows < size ∨ cols < size then List.replicate size FpVal.nan
  else if info ≠ 0 then List.replicate size FpVal.nan
  else vals

/-- The loop over the matrix list of compute_eigenvalues (lines 140-188): each
instance is processed independently and writes its own output column. -/
def compute_eigenvalues_list (size : ℕ) (insts : List (ℕ × ℕ × ℤ × List FpVal)) :
    List (List FpVal) :=
  insts.map fun t => compute_eigenvalues_column size t.1 t.2.1 t.2.2.1 t.2.2.2

/-! ## BlockMatrix bookkeeping (src/unnamed/part_005) and the abstract solver
partition setter (src/unnamed/part_018) -/

/-- Prefix-sum offsets with running start acc: the meaning of result[0] = 0
followed by std::partial_sum over all but the last size
(BlockMatrix::from_zero_cum_sum, part_005 lines 59-68, and the same idiom in
MatrixSolverAbstract::setBlockSizes, part_018 lines 77-79). -/
def cum_from (acc : ℤ) : List ℤ → List ℤ
  | [] => []
  | s :: rest => acc :: cum_from (acc + s) rest

/-- Offsets of a size sequence: zero followed by the partial sums. -/
def from_zero_cum_sum (v : List ℤ) : List ℤ := cum_from 0 v

/-- Embedding of MatrixSolverAbstract::setBlockSizes (part_018 lines 66-80):
when the sizes sum to more than the matrix size the partition falls back to a
single full-size block with offset zero; otherwise the sizes are installed
together with their prefix-sum offsets (first offset zero).  Returns the pair
(block_sizes, block_offsets). -/
def setBlockSizes (matrix_size : ℕ) (sizes : List ℤ) : List ℤ × List ℤ :=
  if sizes.sum > (matrix_size : ℤ) then ([(matrix_size : ℤ)], [0])
  else (sizes, from_zero_cum_sum sizes)

/-- State of an Eigen::BlockMatrix (part_005 lines 45-56): the ownership flag,
the backing matrix (abstracted as an opaque payload of type B together with its
dimensions), the size and offset arrays and the view window.  The numeric
members are kept at the C++ types (signed integers). -/
structure BlockMatrixS (B : Type) where
  owner : Bool
  base : B
  base_rows : ℤ
  base_cols : ℤ
  row_sizes : List ℤ
  column_sizes : List ℤ
  row_offsets : List ℤ
  column_offsets : List ℤ
  block_rows_offset : ℤ
  block_cols_offset : ℤ
  block_rows_count : ℤ
  block_cols_count : ℤ
deriving DecidableEq

/-- Embedding of the one-argument BlockMatrix::setBlocks (part_005 lines
96-108): a non-owning reference view returns immediately; an owning view
installs the sizes for rows and columns together with their prefix-sum offsets
and updates the block counts.  No comparison against the backing dimensions is
performed. -/
def BlockMatrixS.setBlocks {B : Type} (s : BlockMatrixS B) (isotropic_sizes : List ℤ) :
    BlockMatrixS B :=
  if !s.owner then s
  else
    { s with
      row_sizes := isotropic_sizes
      column_sizes := isotropic_sizes
      row_offsets := from_zero_cum_sum isotropic_sizes
      column_offsets := from_zero_cum_sum isotropic_sizes
      block_rows_count := isotropic_sizes.length
      block_cols_count := isotropic_sizes.length }

/-- Embedding of the two-argument BlockMatrix::setBlocks (part_005 lines
110-122). -/
def BlockMatrixS.setBlocks2 {B : Type} (s : BlockMatrixS B) (rows columns : List ℤ) :
    BlockMatrixS B :=
  if !s.owner then s
  else
    { s with
      row_sizes := rows
      column_sizes := columns
      row_offsets := from_zero_cum_sum rows
      column_offsets := from_zero_cum_sum columns
      block_rows_count := rows.length
      block_cols_count := columns.length }

/-- Embedding of BlockMatrix::resetBlocks (part_005 lines 124-138). -/
def BlockMatrixS.resetBlocks {B : Type} (s : BlockMatrixS B) : BlockMatrixS B :=
  if !s.owner then s
  else
    { s with
      row_sizes := [s.base_rows]
      column_sizes := [s.base_cols]
      row_offsets := [0]
      column_offsets := [0]
      block_rows_offset := 0
      block_cols_offset := 0
      block_rows_count := 1
      block_cols_count := 1 }

/-- Signed block-index resolution, the idiom i = (i >= 0) ? i : blockRows() + i
of BlockMatrix::blockRowSize / blockRowOffset / block (part_005 lines 80-84 and
368-380). -/
def resolveBlockIndex (count : ℤ) (i : ℤ) : ℤ := if i ≥ 0 then i else count + i

/-- Embedding of BlockMatrix::blockRowSize (part_005 line 80): resolve the
signed index against the block count and read the size array there.  The raw
Eigen array access of the source has no bounds check (an out-of-range access
asserts or is undefined); the embedding surfaces exactly the out-of-range
accesses as none. -/
def blockRowSize (sizes : List ℤ) (i : ℤ) : Option ℤ :=
  let j := resolveBlockIndex sizes.length i
  if j < 0 then none else sizes.get? j.toNat

/-- Embedding of BlockMatrix::blockRowOffset (part_005 line 83), reading the
offset array instead. -/
def blockRowOffset (offsets : List ℤ) (i : ℤ) : Option ℤ :=
  let j := resolveBlockIndex offsets.length i
  if j < 0 then none else offsets.get? j.toNat

/-! ## Theorems: generic matrix facts -/

theorem minv_eq_inv {n : Type} [Fintype n] [DecidableEq n] (A : Matrix n n K) :
    minv A = A⁻¹ := by
  show A.det⁻¹ • A.adjugate = A⁻¹
  rw [Matrix.inv_def, Ring.inverse_eq_inv]

theorem minv_eq_of_mul_eq_one {n : Type} [Fintype n] [DecidableEq n]
    {A B : Matrix n n K} (h : A * B = 1) : minv A = B := by
  rw [minv_eq_inv]
  exact Matrix.inv_eq_right_inv h

theorem isUnit_of_mul_eq_one_matrix {n : Type} [Fintype n] [DecidableEq n]
    {A B : Matrix n n K} (h : A * B = 1) : IsUnit A :=
  ⟨⟨A, B, h, Matrix.mul_eq_one_comm.mp h⟩, rfl⟩

theorem minv_one_dim (a : K) : minv !![a] = !![a⁻¹] := by
  have hd : (!![a] : Matrix (Fin 1) (Fin 1) K).det = a := by
    simp [Matrix.det_fin_one]
  ext i j
  fin_cases i
  fin_cases j
  show (!![a] : Matrix (Fin 1) (Fin 1) K).det⁻¹ • (Matrix.adjugate !![a]) 0 0 = a⁻¹
  rw [Matrix.adjugate_fin_one, hd]
  simp

theorem one_dim_mul (a b : K) : (!![a] : Matrix (Fin 1) (Fin 1) K) * !![b] = !![a * b] := by
  ext i j
  fin_cases i
  fin_cases j
  simp [Matrix.mul_apply]

theorem one_dim_sub (a b : K) : (!![a] : Matrix (Fin 1) (Fin 1) K) - !![b] = !![a - b] := by
  ext i j
  fin_cases i
  fin_cases j
  simp

theorem fromBlocks_sub {l m n o : Type} (A : Matrix n l K) (B : Matrix n m K)
    (C : Matrix o l K) (D : Matrix o m K) (A2 : Matrix n l K) (B2 : Matrix n m K)
    (C2 : Matrix o l K) (D2 : Matrix o m K) :
    Matrix.fromBlocks A B C D - Matrix.fromBlocks A2 B2 C2 D2 =
      Matrix.fromBlocks (A - A2) (B - B2) (C - C2) (D - D2) := by
  rw [sub_eq_add_neg, Matrix.fromBlocks_neg, Matrix.fromBlocks_add]
  simp [sub_eq_add_neg]

theorem pad_mul_pad {a b c : Type} [Fintype a] [Fintype b] [Fintype c]
    (l : Matrix b a K) (X : Matrix a a K) (u : Matrix a b K) :
    Matrix.fromRows l (0 : Matrix c a K) * X * Matrix.fromColumns u (0 : Matrix a c K) =
      Matrix.fromBlocks (l * X * u) 0 0 0 := by
  rw [Matrix.fromRows_mul, Matrix.fromRows_mul_fromColumns]
  simp

/-- Invertibility of a block matrix and the bottom-right block of its inverse,
by the Schur complement of the top-left block. -/
theorem schur_corner {a b : Type} [Fintype a] [DecidableEq a] [Fintype b] [DecidableEq b]
    (A : Matrix a a K) (B : Matrix a b K) (C : Matrix b a K) (D : Matrix b b K)
    (hA : IsUnit A) (hS : IsUnit (D - C * A⁻¹ * B)) :
    IsUnit (Matrix.fromBlocks A B C D) ∧
      ((Matrix.fromBlocks A B C D)⁻¹).toBlocks₂₂ = (D - C * A⁻¹ * B)⁻¹ := by
  obtain ⟨iA⟩ := hA.nonempty_invertible
  obtain ⟨iS⟩ := hS.nonempty_invertible
  letI := iA
  have hAinv : ⅟A = A⁻¹ := Matrix.invOf_eq_nonsing_inv A
  have hS2 : Invertible (D - C * ⅟A * B) := by rw [hAinv]; exact iS
  letI := hS2
  letI := Matrix.fromBlocks₁₁Invertible A B C D
  constructor
  · exact isUnit_of_invertible _
  · have h2 : (Matrix.fromBlocks A B C D)⁻¹ = ⅟(Matrix.fromBlocks A B C D) :=
      (Matrix.invOf_eq_nonsing_inv _).symm
    rw [h2, Matrix.invOf_fromBlocks₁₁_eq A B C D, Matrix.toBlocks_fromBlocks₂₂,
      Matrix.invOf_eq_nonsing_inv, hAinv]

/-! ## Theorems: the forward sweep computes the bottom-right block of the
inverse -/

theorem single_toMatrix_submatrix {k : ℕ} (d : Matrix (Fin k) (Fin k) K) :
    (Matrix.fromBlocks d 0 0 (0 : Matrix (BlockIdx []) (BlockIdx []) K)) =
      d.submatrix (Equiv.sumEmpty (Fin k) (BlockIdx [])) (Equiv.sumEmpty (Fin k) (BlockIdx [])) := by
  ext i j
  rcases i with i | i
  · rcases j with j | j
    · simp
    · exact (IsEmpty.false j).elim
  · exact (IsEmpty.false i).elim

theorem corner_single {k : ℕ} (d : Matrix (Fin k) (Fin k) K) :
    cornerBlock ((Matrix.fromBlocks d 0 0 (0 : Matrix (BlockIdx []) (BlockIdx []) K))⁻¹) = d⁻¹ := by
  rw [single_toMatrix_submatrix, Matrix.inv_submatrix_equiv]
  ext i j
  simp [cornerBlock, lastEmbed]

theorem isUnit_single {k : ℕ} (d : Matrix (Fin k) (Fin k) K) (h : IsUnit d) :
    IsUnit (Matrix.fromBlocks d 0 0 (0 : Matrix (BlockIdx []) (BlockIdx []) K)) := by
  rw [single_toMatrix_submatrix]
  exact (Matrix.isUnit_submatrix_equiv _ _).mpr h

theorem subHead_toMatrix {k : ℕ} {ks : List ℕ} (M : TriDiag K k ks)
    (σ : Matrix (Fin k) (Fin k) K) :
    (M.subHead σ).toMatrix = M.toMatrix - Matrix.fromBlocks σ 0 0 0 := by
  cases M with
  | single d =>
    simp only [TriDiag.subHead, TriDiag.toMatrix, fromBlocks_sub, sub_zero]
  | cons d u l rest =>
    simp only [TriDiag.subHead, TriDiag.toMatrix, fromBlocks_sub, sub_zero]

theorem subHead_zero {k : ℕ} {ks : List ℕ} (M : TriDiag K k ks) : M.subHead 0 = M := by
  cases M with
  | single d => show TriDiag.single (d - 0) = TriDiag.single d; rw [sub_zero]
  | cons d u l rest => show TriDiag.cons (d - 0) u l rest = TriDiag.cons d u l rest; rw [sub_zero]

theorem isUnit_toMatrix_of_sweepOk {k : ℕ} {ks : List ℕ} (M : TriDiag K k ks) :
    ∀ σ : Matrix (Fin k) (Fin k) K, M.sweepOk σ → IsUnit ((M.subHead σ).toMatrix) := by
  induction M with
  | single d =>
    intro σ h
    exact isUnit_single (d - σ) h
  | cons d u l rest ih =>
    intro σ h
    obtain ⟨h1, h2⟩ := h
    simp only [TriDiag.subHead, TriDiag.toMatrix]
    have hS : IsUnit (rest.toMatrix -
        Matrix.fromRows l 0 * (d - σ)⁻¹ * Matrix.fromColumns u 0) := by
      rw [pad_mul_pad, ← subHead_toMatrix]
      rw [minv_eq_inv] at h2
      exact ih _ h2
    exact (schur_corner (d - σ) (Matrix.fromColumns u 0) (Matrix.fromRows l 0)
      rest.toMatrix h1 hS).1

theorem cornerBlock_toBlocks₂₂ {k a : ℕ} {ks : List ℕ}
    (X : Matrix (Fin k ⊕ BlockIdx (a :: ks)) (Fin k ⊕ BlockIdx (a :: ks)) K) :
    cornerBlock X = cornerBlock (X.toBlocks₂₂) := by
  ext i j
  simp [cornerBlock, lastEmbed, Matrix.toBlocks₂₂]

/-- The generalized sweep, started from an incoming self-energy sigma, computes
the bottom-right block of the inverse of the block-tridiagonal matrix whose
head diagonal block has sigma subtracted, provided every matrix the sweep
inverts is invertible. -/
theorem sweep_eq_corner {k : ℕ} {ks : List ℕ} (M : TriDiag K k ks) :
    ∀ σ : Matrix (Fin k) (Fin k) K, M.sweepOk σ →
      M.sweep σ = cornerBlock (((M.subHead σ).toMatrix)⁻¹) := by
  induction M with
  | single d =>
    intro σ h
    simp only [TriDiag.sweep, TriDiag.subHead, TriDiag.toMatrix]
    rw [corner_single, minv_eq_inv]
  | cons d u l rest ih =>
    intro σ h
    obtain ⟨h1, h2⟩ := h
    have h2i : rest.sweepOk (l * (d - σ)⁻¹ * u) := by rw [← minv_eq_inv]; exact h2
    have hS : IsUnit (rest.toMatrix -
        Matrix.fromRows l 0 * (d - σ)⁻¹ * Matrix.fromColumns u 0) := by
      rw [pad_mul_pad, ← subHead_toMatrix]
      exact isUnit_toMatrix_of_sweepOk rest _ h2i
    have hcorner := (schur_corner (d - σ) (Matrix.fromColumns u 0) (Matrix.fromRows l 0)
      rest.toMatrix h1 hS).2
    simp only [TriDiag.sweep, TriDiag.subHead, TriDiag.toMatrix]
    rw [cornerBlock_toBlocks₂₂, hcorner, pad_mul_pad, ← subHead_toMatrix]
    rw [minv_eq_inv (d - σ)]
    exact ih _ h2i

theorem isUnit_one_dim {a : K} (h : a ≠ 0) : IsUnit (!![a] : Matrix (Fin 1) (Fin 1) K) := by
  have hd : (!![a] : Matrix (Fin 1) (Fin 1) K).det = a := by simp [Matrix.det_fin_one]
  rw [Matrix.isUnit_iff_isUnit_det, hd]
  exact isUnit_iff_ne_zero.mpr h

/-- Claim C1 (amended): for every block-tridiagonal matrix M with blockCount at
least 2, compute(LastBlock) performs the forward sweep sigma := block(b+1,b) *
inverse(block(b,b) - sigma) * block(b,b+1) for b = 0 ... blockCount-2 starting
from sigma = 0 (this is the definition of compute_last_block and
TriDiag.sweep), returns inverse(block(last,last) - sigma), and the result
equals the bottom-right diagonal block of inverse(M) - PROVIDED every matrix
the sweep inverts, block(b,b) - sigma_b for b = 0 ... blockCount-1, is
invertible (such an M is itself automatically invertible).  The hypothesis of
the claim as frozen, invertibility of the diagonal blocks alone, is not
sufficient; see the counterexample. -/
theorem C1_last_block_corner {k a : ℕ} {ks : List ℕ} (M : TriDiag K k (a :: ks))
    (h : M.sweepOk 0) :
    compute_last_block M = cornerBlock (minv M.toMatrix) := by
  cases M with
  | cons d u l rest =>
    have hs := sweep_eq_corner (TriDiag.cons d u l rest) 0 h
    rw [subHead_zero] at hs
    rw [minv_eq_inv]
    simpa only [compute_last_block] using hs

/-- Witness for claim C1: the 2-by-2 tridiagonal matrix with diagonal entries 2
and couplings 1, taken as two blocks of size one. -/
theorem C1_last_block_corner_witness :
    TriDiag.sweepOk 0 (TriDiag.cons !![(2:ℚ)] !![1] !![1] (TriDiag.single !![2])) ∧
      compute_last_block (TriDiag.cons !![(2:ℚ)] !![1] !![1] (TriDiag.single !![2])) =
        cornerBlock (minv (TriDiag.toMatrix
          (TriDiag.cons !![(2:ℚ)] !![1] !![1] (TriDiag.single !![2])))) := by
  have hok : TriDiag.sweepOk 0 (TriDiag.cons !![(2:ℚ)] !![1] !![1] (TriDiag.single !![2])) := by
    constructor
    · rw [sub_zero]
      exact isUnit_one_dim (by norm_num)
    · show IsUnit (!![(2:ℚ)] - !![1] * minv (!![(2:ℚ)] - 0) * !![1])
      rw [sub_zero, minv_one_dim, one_dim_mul, one_dim_mul, one_dim_sub]
      exact isUnit_one_dim (by norm_num)
  exact ⟨hok, C1_last_block_corner _ hok⟩

/-- Counterexample to claim C1 as frozen: the 3-by-3 tridiagonal matrix with
all diagonal entries and all couplings equal to 1, taken as three blocks of
size one.  Every diagonal block is the invertible 1-by-1 matrix [1] and the
matrix itself is invertible (determinant -1), yet the sweep hits the singular
intermediate matrix block(1,1) - sigma_1 = [0], and the computed last block
[1] differs from the bottom-right entry [0] of the true inverse.  (Under Eigen
the inversion of the singular intermediate would instead poison the result
with Inf/NaN; either way the result is not the bottom-right block of the
inverse.) -/
theorem C1_counterexample :
    TriDiag.diagUnit (TriDiag.cons !![(1:ℚ)] !![1] !![1]
        (TriDiag.cons !![1] !![1] !![1] (TriDiag.single !![1]))) ∧
      compute_last_block (TriDiag.cons !![(1:ℚ)] !![1] !![1]
        (TriDiag.cons !![1] !![1] !![1] (TriDiag.single !![1]))) ≠
      cornerBlock (minv (TriDiag.toMatrix (TriDiag.cons !![(1:ℚ)] !![1] !![1]
        (TriDiag.cons !![1] !![1] !![1] (TriDiag.single !![1]))))) := by
  constructor
  · exact ⟨isUnit_one_dim one_ne_zero,
      isUnit_one_dim one_ne_zero, isUnit_one_dim one_ne_zero⟩
  · have hL : compute_last_block (TriDiag.cons !![(1:ℚ)] !![1] !![1]
        (TriDiag.cons !![1] !![1] !![1] (TriDiag.single !![1]))) = !![1] := by
      simp only [compute_last_block, TriDiag.sweep, sub_zero]
      rw [minv_one_dim, one_dim_mul, one_dim_mul, one_dim_sub, minv_one_dim,
        one_dim_mul, one_dim_mul, one_dim_sub, minv_one_dim]
      ext i j
      fin_cases i
      fin_cases j
      norm_num
    have hX : TriDiag.toMatrix (TriDiag.cons !![(1:ℚ)] !![1] !![1]
        (TriDiag.cons !![1] !![1] !![1] (TriDiag.single !![1]))) *
        (Matrix.fromBlocks !![0] (Matrix.fromColumns !![1] (Matrix.fromColumns !![-1] 0))
          (Matrix.fromRows !![1] (Matrix.fromRows !![-1] 0))
          (Matrix.fromBlocks !![-1] (Matrix.fromColumns !![1] 0) (Matrix.fromRows !![1] 0)
            (Matrix.fromBlocks !![0] 0 0 0)) :
          Matrix (Fin 1 ⊕ BlockIdx [1, 1]) (Fin 1 ⊕ BlockIdx [1, 1]) ℚ) = 1 := by
      ext i j
      rcases i with i | i | i | i
      all_goals try exact i.elim
      all_goals fin_cases i
      all_goals rcases j with j | j | j | j
      all_goals try exact j.elim
      all_goals fin_cases j
      all_goals
        simp [TriDiag.toMatrix, Matrix.mul_apply, Fintype.sum_sum_type, Matrix.fromBlocks,
          Matrix.fromColumns, Matrix.fromRows, Matrix.one_apply]
    have hminv := minv_eq_of_mul_eq_one hX
    rw [hL, hminv]
    have hcorner : cornerBlock (Matrix.fromBlocks !![(0:ℚ)]
        (Matrix.fromColumns !![1] (Matrix.fromColumns !![-1] 0))
        (Matrix.fromRows !![1] (Matrix.fromRows !![-1] 0))
        (Matrix.fromBlocks !![-1] (Matrix.fromColumns !![1] 0) (Matrix.fromRows !![1] 0)
          (Matrix.fromBlocks !![0] 0 0 0)) :
        Matrix (Fin 1 ⊕ BlockIdx [1, 1]) (Fin 1 ⊕ BlockIdx [1, 1]) ℚ) = !![0] := by
      ext i j
      fin_cases i
      fin_cases j
      simp [cornerBlock, lastEmbed, Matrix.fromBlocks]
    rw [hcorner]
    intro hcontra
    have h01 := congrFun (congrFun hcontra 0) 0
    simp at h01

/-! ## Theorems: single-block corner modes (claim C7) -/

theorem one_dim_add (a b : K) : (!![a] : Matrix (Fin 1) (Fin 1) K) + !![b] = !![a + b] := by
  ext i j
  fin_cases i
  fin_cases j
  simp

theorem zero_one_dim : (0 : Matrix (Fin 1) (Fin 1) K) = !![0] := by
  ext i j
  fin_cases i
  fin_cases j
  simp

theorem one_dim_conjT [StarRing K] (a : K) :
    (!![a] : Matrix (Fin 1) (Fin 1) K)ᴴ = !![star a] := by
  ext i j
  fin_cases i
  fin_cases j
  simp

/-- Claim C7 (the code evaluated at the failing input): for a matrix whose
partition is a single block, GreensSolver::compute_last_block of
src/GreensFormalism/greenssolver.hpp takes the else branch G = sigma.inverse()
with sigma still the zero block, so at M = [[2]] it returns the inverse of the
zero matrix (0 in this embedding; a NaN/Inf fill under Eigen) rather than
degrading to FullMatrix: inverse(M) = [[1/2]].  The MatrixSolverAbstract-based
variant (src/Misc/matrixsolverabstract.hpp lines 209-216) instead checks
blockMatrix() and returns matrix.inverse() as the claim states. -/
theorem C7_single_block_corner_mode :
    compute_last_block (TriDiag.single !![(2:ℚ)]) = 0 ∧
      cornerBlock (minv (TriDiag.toMatrix (TriDiag.single !![(2:ℚ)]))) = !![(2:ℚ)⁻¹] ∧
      (0 : Matrix (Fin 1) (Fin 1) ℚ) ≠ !![(2:ℚ)⁻¹] := by
  refine ⟨?_, ?_, ?_⟩
  · show minv (0 : Matrix (Fin 1) (Fin 1) ℚ) = 0
    rw [zero_one_dim, minv_one_dim]
    norm_num
  · rw [minv_eq_inv]
    simp only [TriDiag.toMatrix]
    rw [corner_single, ← minv_eq_inv, minv_one_dim]
  · intro h
    have h01 := congrFun (congrFun h 0) 0
    simp at h01

/-! ## Theorems: the chain solver loop (claims C3 and C4) -/

theorem chainStep_zero_coupling {n : Type} [Fintype n] [DecidableEq n]
    (s : ChainState n K) (h1 : s.alpha = 0) (h2 : s.beta = 0) (h3 : s.g = minv s.epsilon) :
    chainStep s = { epsilon := s.epsilon
                    epsilonsurf := s.epsilonsurf
                    alpha := 0
                    beta := 0
                    g := s.g
                    iter := s.iter + 1 } := by
  simp [chainStep, h1, h2, h3]

theorem chainLoop_zero_coupling {n : Type} [Fintype n] [DecidableEq n]
    (negligible : Matrix n n K → Bool) (h0 : negligible 0 = true) :
    ∀ (fuel : ℕ) (s : ChainState n K), s.alpha = 0 → s.beta = 0 → s.g = minv s.epsilon →
      chainLoop negligible fuel s =
        { epsilon := s.epsilon
          epsilonsurf := s.epsilonsurf
          alpha := 0
          beta := 0
          g := s.g
          iter := s.iter + fuel } := by
  intro fuel
  induction fuel with
  | zero =>
    intro s h1 h2 h3
    rcases s with ⟨e, es, a, b, g2, it⟩
    obtain rfl : a = 0 := h1
    obtain rfl : b = 0 := h2
    simp [chainLoop]
  | succ f ih =>
    intro s h1 h2 h3
    have hv : chainValid negligible s = true := by simp [chainValid, h1, h2, h0]
    rw [chainLoop, if_pos hv, chainStep_zero_coupling s h1 h2 h3]
    rw [ih { epsilon := s.epsilon
             epsilonsurf := s.epsilonsurf
             alpha := 0
             beta := 0
             g := s.g
             iter := s.iter + 1 } rfl rfl h3]
    congr 1
    show s.iter + 1 + f = s.iter + (f + 1)
    omega

/-- With a zero inter-cell coupling the decimation loop of
ChainSolver::compute_matrix spins for the FULL iteration budget (every
iteration is a no-op), because the loop guard valid() of lines 648-654 returns
true exactly when the couplings are negligible and the loop runs while valid()
holds; the returned matrix is still inverse(H0). -/
theorem chainCompute_zero_coupling {n : Type} [StarRing K] [Fintype n] [DecidableEq n]
    (negligible : Matrix n n K → Bool) (h0 : negligible 0 = true)
    (H : Matrix n n K) (m : ℕ) :
    chainCompute negligible m H 0 = (minv H, m) := by
  have hinit : chainInit H (0 : Matrix n n K) =
      { epsilon := H
        epsilonsurf := H
        alpha := 0
        beta := 0
        g := minv H
        iter := 0 } := by
    simp [chainInit]
  simp only [chainCompute]
  rw [hinit, chainLoop_zero_coupling negligible h0 m _ rfl rfl rfl]
  simp

/-- Claim C3 (the code evaluated at the failing input): with H0 = [[1]],
V = [[0]] and max_iterations = 2, ChainSolver::compute returns inverse(H0) =
[[1]] as the claim states, but only after running the loop for the FULL
iteration budget of 2 (no-op) iterations - not after zero iterations with an
immediate exit, because the convergence test of lines 648-654 is inverted: it
keeps looping exactly while both couplings are negligible. -/
theorem C3_zero_coupling_full_cap :
    chainCompute negligible_exact 2 !![(1:ℚ)] 0 = (!![1], 2) ∧
      negligible_exact (0 : Matrix (Fin 1) (Fin 1) ℚ) = true := by
  have h0 : negligible_exact (0 : Matrix (Fin 1) (Fin 1) ℚ) = true := by
    simp [negligible_exact]
  refine ⟨?_, h0⟩
  rw [chainCompute_zero_coupling negligible_exact h0 !![(1:ℚ)] 2]
  rw [minv_one_dim]
  norm_num

theorem chainLoop_iter_le {n : Type} [Fintype n] [DecidableEq n]
    (negligible : Matrix n n K → Bool) :
    ∀ (fuel : ℕ) (s : ChainState n K), (chainLoop negligible fuel s).iter ≤ s.iter + fuel := by
  intro fuel
  induction fuel with
  | zero => intro s; simp [chainLoop]
  | succ f ih =>
    intro s
    rw [chainLoop]
    split
    · refine (ih (chainStep s)).trans ?_
      simp [chainStep]
      omega
    · omega

/-- Claim C4 (termination cap, and the code evaluated at the failing input):
the iteration counter never exceeds max_iterations (the hard cap does
guarantee termination), but the loop stops BEFORE the cap exactly when the
couplings are NOT both below tolerance - the opposite of the claim: with
H0 = [[1]], V = [[1]] and max_iterations = 5, the coupling alpha = [[1]] is
not negligible, the guard of lines 648-654 is false at entry, and the loop
exits after 0 of 5 iterations, returning inverse(H0 + V * inverse(H0) *
adjoint(V)) = [[1/2]]. -/
theorem C4_cap_and_inverted_guard :
    (∀ (m : ℕ) (H V : Matrix (Fin 1) (Fin 1) ℚ),
        (chainCompute negligible_exact m H V).2 ≤ m) ∧
      chainCompute negligible_exact 5 !![(1:ℚ)] !![1] = (!![2⁻¹], 0) ∧
      negligible_exact !![(1:ℚ)] = false ∧ (0 : ℕ) < 5 := by
  refine ⟨?_, ?_, ?_, by norm_num⟩
  · intro m H V
    have := chainLoop_iter_le negligible_exact m (chainInit H V)
    simpa [chainCompute, chainInit] using this
  · have hneg : negligible_exact !![(1:ℚ)] = false := by
      simp [negligible_exact]
      intro h
      have h01 := congrFun (congrFun h 0) 0
      simp at h01
    have hv : chainValid negligible_exact (chainInit !![(1:ℚ)] !![1]) = false := by
      simp [chainValid, chainInit, hneg]
    simp only [chainCompute, chainLoop, hv]
    simp only [Bool.false_eq_true, if_false, chainInit]
    rw [minv_one_dim, one_dim_conjT, one_dim_mul, one_dim_mul, one_dim_add, minv_one_dim]
    norm_num
  · simp [negligible_exact]
    intro h
    have h01 := congrFun (congrFun h 0) 0
    simp at h01

/-! ## Theorems: partition setters and block-index resolution (claims C8, C9,
C10) -/

theorem cum_from_get? :
    ∀ (v : List ℤ) (acc : ℤ) (i : ℕ), i < v.length →
      (cum_from acc v).get? i = some (acc + (v.take i).sum) := by
  intro v
  induction v with
  | nil =>
    intro acc i h
    simp at h
  | cons s rest ih =>
    intro acc i h
    cases i with
    | zero => simp [cum_from]
    | succ i =>
      have h2 : i < rest.length := by simpa using h
      show (cum_from (acc + s) rest).get? i = _
      rw [ih (acc + s) i h2]
      simp [add_assoc]

/-- Claim C8 (amended): MatrixSolverAbstract::setBlockSizes installs the
fallback single full-size block with offset zero when the sizes sum exceeds
the matrix size, and otherwise installs the given sizes together with their
prefix-sum offsets, the offset of block i being the sum of the first i sizes
(in particular the first offset is zero).  The OTHER cited partition setter,
BlockMatrix::setBlocks, performs no such dimension check at all - see the
counterexample. -/
theorem C8_setBlockSizes_contract (matrix_size : ℕ) (sizes : List ℤ) :
    (sizes.sum > (matrix_size : ℤ) →
      setBlockSizes matrix_size sizes = ([(matrix_size : ℤ)], [0])) ∧
    (¬ sizes.sum > (matrix_size : ℤ) →
      setBlockSizes matrix_size sizes = (sizes, from_zero_cum_sum sizes) ∧
      ∀ i : ℕ, i < sizes.length →
        (from_zero_cum_sum sizes).get? i = some ((sizes.take i).sum)) := by
  constructor
  · intro h
    simp [setBlockSizes, h]
  · intro h
    refine ⟨by simp [setBlockSizes, h], ?_⟩
    intro i hi
    have hc := cum_from_get? sizes 0 i hi
    simpa [from_zero_cum_sum] using hc

/-- Witness for claim C8: the fallback branch at matrix size 1 with sizes
[2, 3], and the installing branch at matrix size 4 with sizes [1, 2]. -/
theorem C8_setBlockSizes_contract_witness :
    setBlockSizes 1 [2, 3] = ([1], [0]) ∧
      setBlockSizes 4 [1, 2] = ([1, 2], from_zero_cum_sum [1, 2]) ∧
      (from_zero_cum_sum [1, 2]).get? 1 = some 1 := by
  refine ⟨(C8_setBlockSizes_contract 1 [2, 3]).1 (by norm_num),
    ((C8_setBlockSizes_contract 4 [1, 2]).2 (by norm_num)).1, ?_⟩
  have h := ((C8_setBlockSizes_contract 4 [1, 2]).2 (by norm_num)).2 1 (by norm_num)
  simpa using h

/-- Counterexample to claim C8 as frozen: BlockMatrix::setBlocks on an owning
2-by-2 matrix, given sizes [3, 4] whose sum 7 exceeds the dimension 2,
installs the sizes unchanged instead of replacing the partition with the
single full-size block [2]. -/
theorem C8_counterexample :
    ((3 : ℤ) + 4 > 2) ∧
      (BlockMatrixS.setBlocks
        { owner := true
          base := ()
          base_rows := 2
          base_cols := 2
          row_sizes := [2]
          column_sizes := [2]
          row_offsets := [0]
          column_offsets := [0]
          block_rows_offset := 0
          block_cols_offset := 0
          block_rows_count := 1
          block_cols_count := 1 } [3, 4]).row_sizes = [3, 4] ∧
      ([3, 4] : List ℤ) ≠ [(2 : ℤ)] := by
  refine ⟨by norm_num, ?_, by decide⟩
  simp [BlockMatrixS.setBlocks]

/-- Claim C9: signed block-index resolution maps a nonnegative index to itself
and a negative index i to blockCount + i; for every i in the interval
[-blockCount, blockCount-1] this yields a valid zero-based block index, and
the size and offset lookups read exactly that entry of the size and offset
arrays; for any i outside the interval the resolved index is out of bounds
and the lookup fails. -/
theorem C9_resolve_contract (sizes offsets : List ℤ) (i : ℤ)
    (hlen : offsets.length = sizes.length) :
    ((0 ≤ i → resolveBlockIndex sizes.length i = i) ∧
      (i < 0 → resolveBlockIndex sizes.length i = sizes.length + i)) ∧
    ((-(sizes.length : ℤ) ≤ i ∧ i < sizes.length) →
      ∃ j : ℕ, j < sizes.length ∧ resolveBlockIndex sizes.length i = j ∧
        blockRowSize sizes i = sizes.get? j ∧ blockRowOffset offsets i = offsets.get? j ∧
        (sizes.get? j).isSome) ∧
    ((i < -(sizes.length : ℤ) ∨ (sizes.length : ℤ) ≤ i) → blockRowSize sizes i = none) := by
  refine ⟨⟨?_, ?_⟩, ?_, ?_⟩
  · intro h
    simp [resolveBlockIndex, h]
  · intro h
    have : ¬ i ≥ 0 := by omega
    simp [resolveBlockIndex, this]
  · rintro ⟨hlo, hhi⟩
    by_cases hpos : i ≥ 0
    · refine ⟨i.toNat, by omega, ?_, ?_, ?_, ?_⟩
      · simp [resolveBlockIndex, hpos]
      · simp [blockRowSize, resolveBlockIndex, hpos]
      · simp [blockRowOffset, resolveBlockIndex, hpos, hlen]
      · rw [List.get?_eq_get (by omega)]
        simp
    · refine ⟨((sizes.length : ℤ) + i).toNat, by omega, ?_, ?_, ?_, ?_⟩
      · simp [resolveBlockIndex, hpos]
        omega
      · simp [blockRowSize, resolveBlockIndex, hpos]
        intro hneg
        omega
      · simp [blockRowOffset, resolveBlockIndex, hpos, hlen]
        intro hneg
        omega
      · rw [List.get?_eq_get (by omega)]
        simp
  · intro h
    rcases h with h | h
    · have hneg : resolveBlockIndex sizes.length i < 0 := by
        have hlt : ¬ i ≥ 0 := by omega
        simp only [resolveBlockIndex, if_neg hlt]
        omega
      simp [blockRowSize, hneg]
    · have hpos : i ≥ 0 := by omega
      have hres : resolveBlockIndex sizes.length i = i := by simp [resolveBlockIndex, hpos]
      simp [blockRowSize, hres]
      omega

/-- Witness for claim C9: the partition with sizes [2, 3] and offsets [0, 2]
at the negative index -1, which resolves to block 1 with size 3 and offset
2. -/
theorem C9_resolve_contract_witness :
    blockRowSize [2, 3] (-1) = some 3 ∧ blockRowOffset [0, 2] (-1) = some 2 := by
  obtain ⟨j, hj, hres, hsize, hoffset, hsome⟩ :=
    ((C9_resolve_contract [2, 3] [0, 2] (-1) rfl).2.1 (by norm_num))
  have hj1 : (j : ℤ) = 1 := by
    rw [← hres]
    norm_num [resolveBlockIndex]
  have hj2 : j = 1 := by exact_mod_cast hj1
  subst hj2
  rw [hsize, hoffset]
  exact ⟨rfl, rfl⟩

/-- Claim C10: on a BlockMatrix view that does not own its backing storage,
setBlocks (both overloads) and resetBlocks return at once: the sizes, offsets,
counts and the backing payload are all left exactly as they were. -/
theorem C10_reference_view_noop {B : Type} (s : BlockMatrixS B)
    (sizes r c : List ℤ) (h : s.owner = false) :
    s.setBlocks sizes = s ∧ s.setBlocks2 r c = s ∧ s.resetBlocks = s := by
  refine ⟨?_, ?_, ?_⟩ <;>
    simp [BlockMatrixS.setBlocks, BlockMatrixS.setBlocks2, BlockMatrixS.resetBlocks, h]

/-- Witness for claim C10: a concrete non-owning two-block reference view. -/
theorem C10_reference_view_noop_witness :
    ({ owner := false
       base := ()
       base_rows := 3
       base_cols := 3
       row_sizes := [1, 2]
       column_sizes := [1, 2]
       row_offsets := [0, 1]
       column_offsets := [0, 1]
       block_rows_offset := 0
       block_cols_offset := 0
       block_rows_count := 2
       block_cols_count := 2 } : BlockMatrixS Unit).owner = false ∧
    BlockMatrixS.setBlocks
      { owner := false
        base := ()
        base_rows := 3
        base_cols := 3
        row_sizes := [1, 2]
        column_sizes := [1, 2]
        row_offsets := [0, 1]
        column_offsets := [0, 1]
        block_rows_offset := 0
        block_cols_offset := 0
        block_rows_count := 2
        block_cols_count := 2 } [5] =
      { owner := false
        base := ()
        base_rows := 3
        base_cols := 3
        row_sizes := [1, 2]
        column_sizes := [1, 2]
        row_offsets := [0, 1]
        column_offsets := [0, 1]
        block_rows_offset := 0
        block_cols_offset := 0
        block_rows_count := 2
        block_cols_count := 2 } := by
  refine ⟨rfl, ?_⟩
  exact (C10_reference_view_noop _ [5] [6] [7] rfl).1

/-! ## Theorems: per-instance eigensolver failure policy (claim C5) -/

/-- Claim C5 (amended): the eigensolver loop processes instances
independently - the output column of instance i is a function of instance i
alone, so one failing instance does not corrupt the others - but a failing
instance (nonzero LAPACK info) is signalled ONLY by filling that column of the
plain output matrix with NaN sentinels; no distinguishable failure value is
surfaced to the caller. -/
theorem C5_per_instance_nan_fill (size : ℕ) (insts : List (ℕ × ℕ × ℤ × List FpVal))
    (i : ℕ) (rows cols : ℕ) (info : ℤ) (vals : List FpVal)
    (hinfo : info ≠ 0) (hrows : size ≤ rows) (hcols : size ≤ cols) :
    (compute_eigenvalues_list size insts).get? i =
      (insts.get? i).map (fun t => compute_eigenvalues_column size t.1 t.2.1 t.2.2.1 t.2.2.2) ∧
    compute_eigenvalues_column size rows cols info vals = List.replicate size FpVal.nan := by
  constructor
  · simp [compute_eigenvalues_list]
  · have h1 : ¬(rows < size ∨ cols < size) := by omega
    simp [compute_eigenvalues_column, h1, hinfo]

/-- Witness for claim C5: a two-instance batch whose first instance fails with
info = 1 and whose second succeeds. -/
theorem C5_per_instance_nan_fill_witness :
    (compute_eigenvalues_list 1 [(1, 1, 1, [FpVal.val 5]), (1, 1, 0, [FpVal.val 7])]).get? 0 =
      some (compute_eigenvalues_column 1 1 1 1 [FpVal.val 5]) ∧
      compute_eigenvalues_column 1 1 1 1 [FpVal.val 5] = List.replicate 1 FpVal.nan := by
  have h := C5_per_instance_nan_fill 1 [(1, 1, 1, [FpVal.val 5]), (1, 1, 0, [FpVal.val 7])]
    0 1 1 1 [FpVal.val 5] (by norm_num) (le_refl 1) (le_refl 1)
  exact ⟨h.1, h.2⟩

/-- Counterexample to claim C5 as frozen: a batch whose only instance FAILS
(info = 1, values [5]) produces output identical to a batch whose only
instance SUCCEEDS but happens to return a NaN value - the failure is not
distinguishable from the output, and the failing column is exactly the
NaN-sentinel fill the claim says must not happen. -/
theorem C5_counterexample :
    compute_eigenvalues_list 1 [(1, 1, 1, [FpVal.val 5])] =
      compute_eigenvalues_list 1 [(1, 1, 0, [FpVal.nan])] ∧
      compute_eigenvalues_column 1 1 1 1 [FpVal.val 5] = [FpVal.nan] := by
  constructor <;> simp [compute_eigenvalues_list, compute_eigenvalues_column]

/-! ## Theorems: solver memoization (claim C6) -/

/-- Claim C6 (amended): HermitianSolver::compute returns the cached state
unchanged whenever eigenvalues are cached and the requested range equals the
stored one - REGARDLESS of the requested mode, because the mode is not part of
the cache key.  (Recomputation is triggered by an empty cache or a differing
range only; GreensSolver::compute has no cache at all and re-executes its
sweep on every call.) -/
theorem C6_memo_ignores_mode {V W : Type} (size : ℤ) (ev : Rng → V) (evec : Rng → V × W)
    (a : HAction) (r : Rng) (s : HState V W)
    (hvals : s.computed_eigenvalues.isNone = false)
    (hrange : rangeEq s.computed_range r = true) :
    hcompute size ev evec a r s = s := by
  have h1 : ¬(a = HAction.eigenvaluesOnly ∧
      (s.computed_eigenvalues.isNone ∨ rangeEq s.computed_range r = false)) := by
    rintro ⟨-, h | h⟩
    · rw [hvals] at h
      exact Bool.noConfusion h
    · rw [hrange] at h
      exact Bool.noConfusion h
  have h2 : ¬(a = HAction.eigenvaluesAndVectors ∧
      (s.computed_eigenvalues.isNone ∨ rangeEq s.computed_range r = false)) := by
    rintro ⟨-, h | h⟩
    · rw [hvals] at h
      exact Bool.noConfusion h
    · rw [hrange] at h
      exact Bool.noConfusion h
  rw [hcompute, if_neg h1, if_neg h2]

/-- Witness for claim C6: a solver state with cached eigenvalues at the full
range, and an EigenvaluesAndVectors request at the same range: the state is
returned unchanged (so the eigenvectors stay uncomputed). -/
theorem C6_memo_ignores_mode_witness :
    hcompute 4 (fun _ => (1 : ℚ)) (fun _ => ((1 : ℚ), (2 : ℚ)))
        HAction.eigenvaluesAndVectors Rng.full
        { computed_range := Rng.full
          computed_eigenvalues := some (1 : ℚ)
          computed_eigenvectors := (none : Option ℚ) } =
      { computed_range := Rng.full
        computed_eigenvalues := some (1 : ℚ)
        computed_eigenvectors := (none : Option ℚ) } :=
  C6_memo_ignores_mode 4 _ _ HAction.eigenvaluesAndVectors Rng.full _ rfl rfl

/-- Counterexample to claim C6 as frozen: starting from a fresh solver,
compute(EigenvaluesOnly, full) followed by compute(EigenvaluesAndVectors,
full) - same inputs, DIFFERENT mode - does not recompute: the second call
returns the cached state and the eigenvectors remain uncomputed, although the
claim requires recomputation whenever the requested mode differs. -/
theorem C6_counterexample :
    hcompute 4 (fun _ => (1 : ℚ)) (fun _ => ((1 : ℚ), (2 : ℚ)))
        HAction.eigenvaluesAndVectors Rng.full
        (hcompute 4 (fun _ => (1 : ℚ)) (fun _ => ((1 : ℚ), (2 : ℚ)))
          HAction.eigenvaluesOnly Rng.full (HState.fresh ℚ ℚ)) =
      hcompute 4 (fun _ => (1 : ℚ)) (fun _ => ((1 : ℚ), (2 : ℚ)))
        HAction.eigenvaluesOnly Rng.full (HState.fresh ℚ ℚ) ∧
    (hcompute 4 (fun _ => (1 : ℚ)) (fun _ => ((1 : ℚ), (2 : ℚ)))
        HAction.eigenvaluesAndVectors Rng.full
        (hcompute 4 (fun _ => (1 : ℚ)) (fun _ => ((1 : ℚ), (2 : ℚ)))
          HAction.eigenvaluesOnly Rng.full (HState.fresh ℚ ℚ))).computed_eigenvectors =
      none := by
  have hfirst : hcompute 4 (fun _ => (1 : ℚ)) (fun _ => ((1 : ℚ), (2 : ℚ)))
      HAction.eigenvaluesOnly Rng.full (HState.fresh ℚ ℚ) =
      { computed_range := Rng.full
        computed_eigenvalues := some (1 : ℚ)
        computed_eigenvectors := (none : Option ℚ) } := by
    rw [hcompute]
    rw [if_pos ⟨rfl, Or.inl rfl⟩]
    rfl
  have hsecond : hcompute 4 (fun _ => (1 : ℚ)) (fun _ => ((1 : ℚ), (2 : ℚ)))
      HAction.eigenvaluesAndVectors Rng.full
      { computed_range := Rng.full
        computed_eigenvalues := some (1 : ℚ)
        computed_eigenvectors := (none : Option ℚ) } =
      { computed_range := Rng.full
        computed_eigenvalues := some (1 : ℚ)
        computed_eigenvectors := (none : Option ℚ) } := by
    rw [hcompute]
    rw [if_neg (by rintro ⟨h, -⟩; exact HAction.noConfusion h)]
    rw [if_neg (by rintro ⟨-, h | h⟩ <;> simp [rangeEq, Rng.full] at h)]
  rw [hfirst, hsecond]
  exact ⟨rfl, rfl⟩

/-! ## Theorems: two-lead transport (claim C2) -/

theorem Qi.mk_re (a b : ℚ) : (⟨a, b⟩ : Qi).re = a := rfl

theorem Qi.mk_im (a b : ℚ) : (⟨a, b⟩ : Qi).im = b := rfl

theorem Qi.zero_re : (0 : Qi).re = 0 := rfl

theorem Qi.zero_im : (0 : Qi).im = 0 := rfl

theorem Qi.one_re : (1 : Qi).re = 1 := rfl

theorem Qi.one_im : (1 : Qi).im = 0 := rfl

theorem Qi.I_re : Qi.I.re = 0 := rfl

theorem Qi.I_im : Qi.I.im = 1 := rfl

theorem Qi.add_re (x y : Qi) : (x + y).re = x.re + y.re := rfl

theorem Qi.add_im (x y : Qi) : (x + y).im = x.im + y.im := rfl

theorem Qi.neg_re (x : Qi) : (-x).re = -x.re := rfl

theorem Qi.neg_im (x : Qi) : (-x).im = -x.im := rfl

theorem Qi.sub_re (x y : Qi) : (x - y).re = x.re - y.re := (sub_eq_add_neg x.re y.re).symm

theorem Qi.sub_im (x y : Qi) : (x - y).im = x.im - y.im := (sub_eq_add_neg x.im y.im).symm

theorem Qi.mul_re (x y : Qi) : (x * y).re = x.re * y.re - x.im * y.im := rfl

theorem Qi.mul_im (x y : Qi) : (x * y).im = x.re * y.im + x.im * y.re := rfl

theorem Qi.inv_re (x : Qi) : x⁻¹.re = x.re / (x.re ^ 2 + x.im ^ 2) := rfl

theorem Qi.inv_im (x : Qi) : x⁻¹.im = -x.im / (x.re ^ 2 + x.im ^ 2) := rfl

theorem Qi.star_re (x : Qi) : (star x).re = x.re := rfl

theorem Qi.star_im (x : Qi) : (star x).im = -x.im := rfl

theorem Qi.two_re : (2 : Qi).re = 2 := by
  rw [← one_add_one_eq_two, Qi.add_re, Qi.one_re]
  norm_num

theorem Qi.two_im : (2 : Qi).im = 0 := by
  rw [← one_add_one_eq_two, Qi.add_im, Qi.one_im]
  norm_num

theorem one_dim_smul (r a : K) : r • (!![a] : Matrix (Fin 1) (Fin 1) K) = !![r * a] := by
  ext i j
  fin_cases i
  fin_cases j
  simp

theorem one_dim_one : (!![(1 : K)] : Matrix (Fin 1) (Fin 1) K) = 1 := by
  ext i j
  fin_cases i
  fin_cases j
  simp [Matrix.one_apply]

/-- Claim C2 (amended): compute(LeftToRight) obtains the two lead surface
Greens functions from the chain engine, builds the embedding self-energies
sigma_left = v_l * g_left * adjoint(v_l) and sigma_right = adjoint(v_r) *
g_right * v_r, runs the Greens engine in FirstBlock mode on the dressed device
matrix h_d - sigma_left - sigma_right, and returns T = Re Tr(Gamma_right * G *
Gamma_left * adjoint(G)) - where Gamma_left is built from the FIRST DEVICE
BLOCK of sigma_left, and Gamma_right is built from the REDUCED self-energy of
the FirstBlock sweep, NOT from sigma_right as the frozen claim has it (see the
counterexample). -/
theorem C2_left_to_right_formula {α β : Type} [StarRing K]
    [Fintype α] [DecidableEq α] [Fintype β] [DecidableEq β]
    (negligible : Matrix (α ⊕ β) (α ⊕ β) K → Bool) (max_iterations : ℕ) (im : K)
    (h_ll v_ll h_rl v_rl v_l v_r h_d : Matrix (α ⊕ β) (α ⊕ β) K) :
    compute_left_to_right negligible max_iterations im h_ll v_ll h_rl v_rl v_l v_r h_d =
      creal (gammaOf im (compute_first_block₂
          (h_d - v_l * (chainCompute negligible max_iterations h_ll v_ll).1 * v_lᴴ -
            v_rᴴ * (chainCompute negligible max_iterations h_rl v_rl).1 * v_r)).2 *
        (compute_first_block₂
          (h_d - v_l * (chainCompute negligible max_iterations h_ll v_ll).1 * v_lᴴ -
            v_rᴴ * (chainCompute negligible max_iterations h_rl v_rl).1 * v_r)).1 *
        gammaOf im (v_l * (chainCompute negligible max_iterations h_ll v_ll).1 *
          v_lᴴ).toBlocks₁₁ *
        (compute_first_block₂
          (h_d - v_l * (chainCompute negligible max_iterations h_ll v_ll).1 * v_lᴴ -
            v_rᴴ * (chainCompute negligible max_iterations h_rl v_rl).1 * v_r)).1ᴴ).trace :=
  rfl

set_option maxHeartbeats 2000000 in
/-- Counterexample to claim C2 as frozen: a concrete two-lead system over the
Gaussian rationals (leads H = (1+i) Id with zero intra-lead hopping, identity
couplings, a two-block device).  The transmission computed by the source,
whose Gamma_right comes from the reduced self-energy of the FirstBlock sweep,
is 0; the formula of the claim, whose Gamma_right comes from the embedding
self-energy sigma_right = adjoint(v_r) * g_right * v_r (restricted to the
device block of G, the only reading that typechecks), gives 1/4. -/
theorem C2_counterexample :
    compute_left_to_right negligible_exact 1 Qi.I
        (Matrix.fromBlocks !![(⟨1, 1⟩ : Qi)] 0 0 !![(⟨1, 1⟩ : Qi)]) 0
        (Matrix.fromBlocks !![(⟨1, 1⟩ : Qi)] 0 0 !![(⟨1, 1⟩ : Qi)]) 0 1 1
        (Matrix.fromBlocks !![(⟨4, -1⟩ : Qi)] !![1] !![1] !![(⟨2, -1⟩ : Qi)]) = 0 ∧
      compute_left_to_right_per_claim negligible_exact 1 Qi.I
        (Matrix.fromBlocks !![(⟨1, 1⟩ : Qi)] 0 0 !![(⟨1, 1⟩ : Qi)]) 0
        (Matrix.fromBlocks !![(⟨1, 1⟩ : Qi)] 0 0 !![(⟨1, 1⟩ : Qi)]) 0 1 1
        (Matrix.fromBlocks !![(⟨4, -1⟩ : Qi)] !![1] !![1] !![(⟨2, -1⟩ : Qi)]) =
        (⟨1/4, 0⟩ : Qi) ∧
      (0 : Qi) ≠ (⟨1/4, 0⟩ : Qi) := by
  have h0 : negligible_exact (0 : Matrix (Fin 1 ⊕ Fin 1) (Fin 1 ⊕ Fin 1) Qi) = true := by
    simp [negligible_exact]
  have hchain1 : (chainCompute negligible_exact 1
      (Matrix.fromBlocks !![(⟨1, 1⟩ : Qi)] 0 0 !![(⟨1, 1⟩ : Qi)]) 0).1 =
      minv (Matrix.fromBlocks !![(⟨1, 1⟩ : Qi)] 0 0 !![(⟨1, 1⟩ : Qi)]) := by
    rw [chainCompute_zero_coupling negligible_exact h0 _ 1]
  have hcc : (⟨1, 1⟩ : Qi) * ⟨1/2, -1/2⟩ = 1 := by
    ext <;>
      simp only [Qi.mul_re, Qi.mul_im, Qi.mk_re, Qi.mk_im, Qi.one_re, Qi.one_im] <;>
      norm_num
  have hXll : Matrix.fromBlocks !![(⟨1, 1⟩ : Qi)] 0 0 !![(⟨1, 1⟩ : Qi)] *
      Matrix.fromBlocks !![(⟨1/2, -1/2⟩ : Qi)] 0 0 !![(⟨1/2, -1/2⟩ : Qi)] = 1 := by
    rw [Matrix.fromBlocks_multiply]
    simp only [Matrix.mul_zero, Matrix.zero_mul, add_zero, zero_add, one_dim_mul, hcc]
    rw [one_dim_one, Matrix.fromBlocks_one]
  have hminvHll : minv (Matrix.fromBlocks !![(⟨1, 1⟩ : Qi)] 0 0 !![(⟨1, 1⟩ : Qi)]) =
      Matrix.fromBlocks !![(⟨1/2, -1/2⟩ : Qi)] 0 0 !![(⟨1/2, -1/2⟩ : Qi)] :=
    minv_eq_of_mul_eq_one hXll
  refine ⟨?_, ?_, ?_⟩
  · simp only [compute_left_to_right]
    rw [hchain1, hminvHll]
    simp only [Matrix.conjTranspose_one, Matrix.one_mul, Matrix.mul_one, fromBlocks_sub,
      one_dim_sub, sub_zero, compute_first_block₂, Matrix.toBlocks_fromBlocks₁₁,
      Matrix.toBlocks_fromBlocks₁₂, Matrix.toBlocks_fromBlocks₂₁, Matrix.toBlocks_fromBlocks₂₂,
      minv_one_dim, one_dim_mul, gammaOf, one_dim_conjT, one_dim_smul, Matrix.trace_fin_one_of,
      creal]
    rw [div_eq_mul_inv]
    ext <;>
      simp only [Qi.mul_re, Qi.mul_im, Qi.add_re, Qi.add_im, Qi.sub_re, Qi.sub_im,
        Qi.neg_re, Qi.neg_im, Qi.inv_re, Qi.inv_im, Qi.star_re, Qi.star_im,
        Qi.mk_re, Qi.mk_im, Qi.one_re, Qi.one_im, Qi.zero_re, Qi.zero_im,
        Qi.I_re, Qi.I_im, Qi.two_re, Qi.two_im] <;>
      norm_num
  · simp only [compute_left_to_right_per_claim]
    rw [hchain1, hminvHll]
    simp only [Matrix.conjTranspose_one, Matrix.one_mul, Matrix.mul_one, fromBlocks_sub,
      one_dim_sub, sub_zero, compute_first_block₂, Matrix.toBlocks_fromBlocks₁₁,
      Matrix.toBlocks_fromBlocks₁₂, Matrix.toBlocks_fromBlocks₂₁, Matrix.toBlocks_fromBlocks₂₂,
      minv_one_dim, one_dim_mul, gammaOf, one_dim_conjT, one_dim_smul, Matrix.trace_fin_one_of,
      creal]
    rw [div_eq_mul_inv]
    ext <;>
      simp only [Qi.mul_re, Qi.mul_im, Qi.add_re, Qi.add_im, Qi.sub_re, Qi.sub_im,
        Qi.neg_re, Qi.neg_im, Qi.inv_re, Qi.inv_im, Qi.star_re, Qi.star_im,
        Qi.mk_re, Qi.mk_im, Qi.one_re, Qi.one_im, Qi.zero_re, Qi.zero_im,
        Qi.I_re, Qi.I_im, Qi.two_re, Qi.two_im] <;>
      norm_num
  · intro h
    have h2 : (0 : ℚ) = 1 / 4 := congrArg Qi.re h
    norm_num at h2

end QuantumMechanics
